import Mathlib

/-!
Verification of the closed-form pricing fragments of the `quantlib_examples`
repository against its specification.

The repository is a set of notebooks; the parts with actual arithmetic are
  * the hand-computed CMS convexity adjustment in `CMS.ipynb`,
  * the CMS-spread-option drift and trapezoid integration in
    `CMS_spread_options.ipynb`,
  * the `xccy_swap` fair-spread bootstrapper in `build_fx_quotes.ipynb`,
  * the analytic swaption formula in `Swaption.ipynb`.

Each section below embeds the expressions of one notebook.  Calls into the
external QuantLib/scipy library (discount factors, year fractions, leg NPVs,
the root finder, the normal CDF) are abstracted: year fractions and discount
factors become real parameters, library routines become function parameters,
and the normal CDF is defined by its Gaussian integral.
-/

namespace CMS

/-! ## CMS.ipynb, hand-computed convexity adjustment

Source cell:
```
G = lambda tau, kappa: (1-np.exp(-kappa*tau))/kappa if kappa>0 else tau
annuity = sum([yearfrac(swp.fixedSchedule()[idx-1],date)*discount_curve.discount(date) ...])
gamma   = sum([yearfrac(...)*discount_curve.discount(date)*G(yearfrac(T0,date), kappa) ...])/annuity
a = discount_curve.discount(Tp)*(gamma - G(yearfrac(T0,Tp), kappa))
      /(discount_curve.discount(TN)*G(yearfrac(T0,TN), kappa) + annuity*S*gamma)
var      = (S+shift)**2 * (np.exp(sigma**2* yearfrac(today,T0)) - 1)
cms_rate = S + annuity/discount_curve.discount(Tp) * a * var
```
The fixed schedule of the underlying swap is embedded as a list of periods,
each carrying the year fraction `delta` of the period, the discount factor
`B` at its pay date and the year fraction `tau` from `T0` to its pay date.
-/

/-- The lambda `G = lambda tau, kappa: (1-np.exp(-kappa*tau))/kappa if kappa>0 else tau`. -/
noncomputable def G (tau kappa : ℝ) : ℝ :=
  if kappa > 0 then (1 - Real.exp (-kappa * tau)) / kappa else tau

/-- One period of the underlying swap's fixed schedule:
`delta = yearfrac(schedule[i-1], schedule[i])`,
`B = discount_curve.discount(schedule[i])`,
`tau = yearfrac(T0, schedule[i])`. -/
structure Period where
  delta : ℝ
  B : ℝ
  tau : ℝ

/-- The source's `annuity` sum. -/
def annuity (sched : List Period) : ℝ :=
  (sched.map fun p => p.delta * p.B).sum

/-- The source's `gamma` sum, divided by `annuity`. -/
noncomputable def gamma (sched : List Period) (kappa : ℝ) : ℝ :=
  (sched.map fun p => p.delta * p.B * G p.tau kappa).sum / annuity sched

/-- The denominator of the linear-TSR coefficient `a`:
`discount_curve.discount(TN)*G(yearfrac(T0,TN), kappa) + annuity*S*gamma`.
`B_TN = discount_curve.discount(TN)` and `tauN = yearfrac(T0,TN)`. -/
noncomputable def aDenom (sched : List Period) (kappa S B_TN tauN : ℝ) : ℝ :=
  B_TN * G tauN kappa + annuity sched * S * gamma sched kappa

/-- The source's linear-TSR coefficient `a`; `B_Tp = discount_curve.discount(Tp)`
and `tauP = yearfrac(T0,Tp)`. -/
noncomputable def a (sched : List Period) (kappa S B_Tp tauP B_TN tauN : ℝ) : ℝ :=
  B_Tp * (gamma sched kappa - G tauP kappa) / aDenom sched kappa S B_TN tauN

/-- The source's `var = (S+shift)**2 * (np.exp(sigma**2*yearfrac(today,T0)) - 1)`;
`T0` stands for `yearfrac(today,T0)`. -/
noncomputable def var (S shift sigma T0 : ℝ) : ℝ :=
  (S + shift) ^ 2 * (Real.exp (sigma ^ 2 * T0) - 1)

/-- The source's `cms_rate = S + annuity/discount_curve.discount(Tp) * a * var`. -/
noncomputable def cms_rate (sched : List Period) (kappa S shift sigma T0 B_Tp tauP B_TN tauN : ℝ) : ℝ :=
  S + annuity sched / B_Tp * a sched kappa S B_Tp tauP B_TN tauN * var S shift sigma T0

/-- Written from the spec's words (section 4.1), for comparison with the code:
the CMS rate is `R = S + (A/B(0,Tp))·a(Tp)·Var[S(T0)]`. -/
noncomputable def specCmsRate (S A BTp aTp Var : ℝ) : ℝ := S + A / BTp * aTp * Var

/-- Written from the spec's words (section 4.1): the shifted-lognormal variance
`Var = (S+s)²(e^{σ²T0}−1)`. -/
noncomputable def specVar (S s sigma T0 : ℝ) : ℝ :=
  (S + s) ^ 2 * (Real.exp (sigma ^ 2 * T0) - 1)

/-- C1: the hand-computed CMS rate of `CMS.ipynb` equals the spec's closed form
`R = S + (A/B(0,Tp))·a(Tp)·Var` with `Var = (S+s)²(e^{σ²T0}−1)`: the convexity
adjustment added to `S` is exactly `(A/B(0,Tp))·a(Tp)·(S+s)²(e^{σ²T0}−1)`. -/
theorem cms_rate_eq_spec (sched : List Period) (kappa S shift sigma T0 B_Tp tauP B_TN tauN : ℝ) :
    cms_rate sched kappa S shift sigma T0 B_Tp tauP B_TN tauN =
      specCmsRate S (annuity sched) B_Tp (a sched kappa S B_Tp tauP B_TN tauN)
        (specVar S shift sigma T0) := rfl

/-- Positivity of the `G` factor for a positive time argument. -/
theorem G_pos {tau : ℝ} (kappa : ℝ) (htau : 0 < tau) : 0 < G tau kappa := by
  unfold G
  split
  · rename_i hk
    apply div_pos _ hk
    have hneg : -kappa * tau < 0 := by nlinarith
    have h1 : Real.exp (-kappa * tau) < 1 := Real.exp_lt_one_iff.mpr hneg
    linarith
  · exact htau

/-- Positivity of the annuity for a nonempty schedule with positive accruals
and discount factors. -/
theorem annuity_pos {sched : List Period} (hne : sched ≠ [])
    (hp : ∀ p ∈ sched, 0 < p.delta ∧ 0 < p.B ∧ 0 < p.tau) :
    0 < annuity sched := by
  unfold annuity
  apply List.sum_pos
  · intro x hx
    obtain ⟨p, hpmem, rfl⟩ := List.mem_map.mp hx
    obtain ⟨h1, h2, _⟩ := hp p hpmem
    exact mul_pos h1 h2
  · simpa using hne

/-- Positivity of `gamma` under the same hypotheses. -/
theorem gamma_pos {sched : List Period} (kappa : ℝ) (hne : sched ≠ [])
    (hp : ∀ p ∈ sched, 0 < p.delta ∧ 0 < p.B ∧ 0 < p.tau) :
    0 < gamma sched kappa := by
  unfold gamma
  apply div_pos _ (annuity_pos hne hp)
  apply List.sum_pos
  · intro x hx
    obtain ⟨p, hpmem, rfl⟩ := List.mem_map.mp hx
    obtain ⟨h1, h2, h3⟩ := hp p hpmem
    exact mul_pos (mul_pos h1 h2) (G_pos kappa h3)
  · simpa using hne

/-- C6 (amended): under positivity of the schedule data, the discount factors
and the final times, and non-negativity of the forward swap rate `S`, every
divisor in the hand-computed CMS convexity adjustment of `CMS.ipynb` is
non-zero: the annuity, the denominator of the TSR coefficient `a`, and the
discount factor `B(0,Tp)`. -/
theorem cms_divisors_nonzero (sched : List Period) (kappa S B_Tp tauP B_TN tauN : ℝ)
    (hne : sched ≠ [])
    (hp : ∀ p ∈ sched, 0 < p.delta ∧ 0 < p.B ∧ 0 < p.tau)
    (hBTN : 0 < B_TN) (htauN : 0 < tauN) (hBTp : 0 < B_Tp) (hS : 0 ≤ S) :
    annuity sched ≠ 0 ∧ aDenom sched kappa S B_TN tauN ≠ 0 ∧ B_Tp ≠ 0 := by
  have hann := annuity_pos hne hp
  have hgam := gamma_pos kappa hne hp
  refine ⟨ne_of_gt hann, ?_, ne_of_gt hBTp⟩
  unfold aDenom
  have h1 : 0 < B_TN * G tauN kappa := mul_pos hBTN (G_pos kappa htauN)
  have h2 : 0 ≤ annuity sched * S * gamma sched kappa :=
    mul_nonneg (mul_nonneg hann.le hS) hgam.le
  positivity

/-- Witness for `cms_divisors_nonzero` on a concrete one-period schedule. -/
theorem cms_divisors_nonzero_witness :
    annuity [⟨1, 1, 1⟩] ≠ 0 ∧ aDenom [⟨1, 1, 1⟩] 1 1 1 1 ≠ 0 ∧ (1 : ℝ) ≠ 0 :=
  cms_divisors_nonzero [⟨1, 1, 1⟩] 1 1 1 1 1 1 (by simp)
    (by intro p hp; simp at hp; subst hp; norm_num)
    (by norm_num) (by norm_num) (by norm_num) (by norm_num)

/-- C6 counterexample: with volatility `0.6 > 0` and all times positive
(`T0`-yearfrac `1`, schedule time `5`, `tauN = 5`), but forward swap rate
`S = -1`, the denominator of the TSR coefficient `a` is exactly `0`, so the
division in `a` is a division by zero even though volatility and times are
positive: positivity of vol and time alone does not make the expression safe. -/
theorem cms_aDenom_zero_example :
    (0 : ℝ) < 0.6 ∧ (0 : ℝ) < 1 ∧ (0 : ℝ) < 5 ∧
      aDenom [⟨1, 1, 5⟩] 0 (-1) 1 5 = 0 := by
  refine ⟨by norm_num, by norm_num, by norm_num, ?_⟩
  have hG : G 5 0 = 5 := by unfold G; norm_num
  unfold aDenom gamma annuity
  simp [hG]

/-- C8: the shifted-lognormal variance `var = (S+shift)²(e^{σ²T0}−1)` tends to
`0` as `σ²·T0` tends to `0`, and it is exactly `0` when `σ = 0` or `T0 = 0`. -/
theorem var_tendsto_zero (S s : ℝ) :
    Filter.Tendsto (fun p : ℝ × ℝ => var S s p.1 p.2)
      (Filter.comap (fun p : ℝ × ℝ => p.1 ^ 2 * p.2) (nhds 0)) (nhds 0)
    ∧ (∀ T0, var S s 0 T0 = 0) ∧ (∀ sigma, var S s sigma 0 = 0) := by
  refine ⟨?_, fun T0 => by simp [var], fun sigma => by simp [var]⟩
  have hg : Filter.Tendsto (fun u : ℝ => (S + s) ^ 2 * (Real.exp u - 1)) (nhds 0) (nhds 0) := by
    have hcont : Continuous fun u : ℝ => (S + s) ^ 2 * (Real.exp u - 1) := by
      continuity
    have := hcont.tendsto 0
    simpa using this
  have := hg.comp (Filter.tendsto_comap (f := fun p : ℝ × ℝ => p.1 ^ 2 * p.2))
  simpa [var, Function.comp] using this

end CMS

namespace Spread

/-! ## CMS_spread_options.ipynb, drift recovery and trapezoid integration

Source:
```
psi = lambda y, curve, day_counter, schedule: sum(day_counter.yearFraction(schedule[i-1], di)
        /(1+y)**day_counter.yearFraction(schedule[0], di) for i, di in enumerate(schedule[1:], 1))

def get_drift(swap, curve, sigma, h = 0.0001):
    schedule = list(swap.fixedSchedule()); day_counter = swap.fixedDayCount()
    S0 = swap.fairRate()
    h = 0.0001
    psi_plus  = psi(S0+h, curve, day_counter, schedule)
    psi_minus = psi(S0-h, curve, day_counter, schedule)
    psi_zero  = psi(S0, curve, day_counter, schedule)
    psi_prime  = (psi_plus - psi_minus)/(2*h)
    psi_second = (psi_plus - 2*psi_zero + psi_minus)/h**2
    Talpha = day_counter.yearFraction(today,schedule[0])
    CMS_rate = S0 - 0.5 * S0**2 *sigma**2 * Talpha * psi_second / psi_prime
    drift = 1/Talpha * np.log(CMS_rate/S0)
    return drift

v_grid = np.linspace(-8, 8, 400)
integrand = [1/np.sqrt(2*np.pi) * np.exp(-0.5*v**2) * get_fv(swap1, swap2, curve, v, ...) for v in v_grid]
undiscounted_payoff = trapezoid(integrand, x=v_grid)
```
The swap's fixed schedule and day counter are embedded as a list of pairs
`(delta i, t i)` with `delta i = yearFraction(schedule[i-1], schedule[i])`
and `t i = yearFraction(schedule[0], schedule[i])`; the swap's fair rate `S0`
and `Talpha = yearFraction(today, schedule[0])` are real parameters, and the
curve (which `psi` receives but never uses) is an opaque parameter. -/

/-- One entry of the fixed schedule as `psi` consumes it. -/
structure Period where
  delta : ℝ
  t : ℝ

/-- The annuity function `psi`; its `curve` argument is passed but unused,
as in the source lambda.  The exponent is a real power. -/
noncomputable def psi {Curve : Type} (y : ℝ) (curve : Curve) (sched : List Period) : ℝ :=
  (sched.map fun p => p.delta / (1 + y) ^ p.t).sum

/-- The source's `get_drift`.  The parameter `h` is the function's keyword
argument; the body reassigns `h = 0.0001` before using it, as in the source. -/
noncomputable def get_drift {Curve : Type} (sched : List Period) (S0 Talpha : ℝ)
    (curve : Curve) (sigma : ℝ) (h : ℝ) : ℝ :=
  let h := (0.0001 : ℝ)
  let psi_plus := psi (S0 + h) curve sched
  let psi_minus := psi (S0 - h) curve sched
  let psi_zero := psi S0 curve sched
  let psi_prime := (psi_plus - psi_minus) / (2 * h)
  let psi_second := (psi_plus - 2 * psi_zero + psi_minus) / h ^ 2
  let CMS_rate := S0 - 0.5 * S0 ^ 2 * sigma ^ 2 * Talpha * psi_second / psi_prime
  1 / Talpha * Real.log (CMS_rate / S0)

/-- C3: `get_drift` recovers the drift from centered finite differences of the
analytic annuity function `psi` with step `h = 0.0001`: it computes
`psi_prime = (psi(S0+h) - psi(S0-h))/(2h)` and
`psi_second = (psi(S0+h) - 2·psi(S0) + psi(S0-h))/h²`, forms
`CMS_rate = S0 - 0.5·S0²·σ²·Talpha·psi_second/psi_prime` and returns
`drift = (1/Talpha)·log(CMS_rate/S0)`. -/
theorem get_drift_eq {Curve : Type} (sched : List Period) (S0 Talpha : ℝ)
    (curve : Curve) (sigma h : ℝ) :
    get_drift sched S0 Talpha curve sigma h =
      1 / Talpha * Real.log
        ((S0 - 0.5 * S0 ^ 2 * sigma ^ 2 * Talpha *
            ((psi (S0 + 0.0001) curve sched - 2 * psi S0 curve sched +
                psi (S0 - 0.0001) curve sched) / (0.0001 : ℝ) ^ 2) /
            ((psi (S0 + 0.0001) curve sched - psi (S0 - 0.0001) curve sched) /
              (2 * 0.0001))) / S0) := rfl

/-- C9: the result of `get_drift` is independent of its `h` parameter, because
the body unconditionally reassigns `h = 0.0001` before the finite differences
are taken. -/
theorem get_drift_ignores_h {Curve : Type} (sched : List Period) (S0 Talpha : ℝ)
    (curve : Curve) (sigma : ℝ) (h1 h2 : ℝ) :
    get_drift sched S0 Talpha curve sigma h1 = get_drift sched S0 Talpha curve sigma h2 := rfl

/-- The grid constructor `np.linspace(start, stop, num)`: `num` evenly spaced
points from `start` to `stop`, both endpoints included. -/
noncomputable def linspace (start stop : ℝ) (num : ℕ) : List ℝ :=
  (List.range num).map fun i : ℕ => start + (stop - start) * (i : ℝ) / ((num : ℝ) - 1)

/-- The source's integration grid `v_grid = np.linspace(-8, 8, 400)`. -/
noncomputable def v_grid : List ℝ := linspace (-8) 8 400

/-- The composite trapezoid rule of `scipy.integrate.trapezoid` with sample
points `x`: the sum of `(x[i+1]-x[i])*(y[i]+y[i+1])/2`. -/
noncomputable def trapezoid : List ℝ → List ℝ → ℝ
  | y0 :: y1 :: ys, x0 :: x1 :: xs => (x1 - x0) * (y0 + y1) / 2 + trapezoid (y1 :: ys) (x1 :: xs)
  | _, _ => 0

/-- The source's `integrand` list: the Gaussian density times the payoff
function `get_fv`, sampled on `v_grid`.  The payoff `fv` (whose own body
delegates to the two swaps and the curve) is a function parameter. -/
noncomputable def integrand (fv : ℝ → ℝ) : List ℝ :=
  v_grid.map fun v => 1 / Real.sqrt (2 * Real.pi) * Real.exp (-0.5 * v ^ 2) * fv v

/-- The source's `undiscounted_payoff = trapezoid(integrand, x=v_grid)`. -/
noncomputable def undiscounted_payoff (fv : ℝ → ℝ) : ℝ :=
  trapezoid (integrand fv) v_grid

/-- C4: for every payoff function, the undiscounted expected payoff is the
trapezoid rule applied to the Gaussian-weighted integrand over the fixed
uniform grid of exactly 400 points `-8 + 16·i/399` on `[-8, 8]` — it is
returned unconditionally, with no convergence check and no error signal. -/
theorem undiscounted_payoff_unconditional (fv : ℝ → ℝ) :
    undiscounted_payoff fv = trapezoid (integrand fv) v_grid
    ∧ v_grid = (List.range 400).map (fun i : ℕ => -8 + 16 * (i : ℝ) / 399)
    ∧ v_grid.length = 400 := by
  refine ⟨rfl, ?_, by unfold v_grid linspace; rw [List.length_map, List.length_range]⟩
  unfold v_grid linspace
  apply List.map_congr_left
  intro i _
  norm_num

end Spread

namespace Xccy

/-! ## build_fx_quotes.ipynb, the `xccy_swap` fair-spread bootstrapper

Source:
```
class xccy_swap:
    def __init__(self, pricing_date, eur_fcst_curve, usd_fcst_curve, tenor_years, spread_eur = None):
        self.inputs = locals(); self.inputs.pop('self')
        self.pricing_date = pricing_date
        self.schedule = ql.MakeSchedule(pricing_date, ql.NullCalendar().advance(pricing_date,
                            ql.Period(tenor_years, ql.Years)), ql.Period('1Y'))
        if spread_eur:
            self.build_swap(pricing_date, spread_eur, eur_fcst_curve, usd_fcst_curve, tenor_years)

    def build_swap(self, pricing_date, spread_eur, eur_fcst_curve, usd_fcst_curve, tenor_years):
        eur_leg = ql.OvernightLeg([1], self.schedule, ql.Eonia(eur_fcst_curve), ql.SimpleDayCounter(),
                                  ql.Following, [1], [spread_eur], True)
        usd_leg = ql.OvernightLeg([1], self.schedule, ql.Sofr(usd_fcst_curve), ql.SimpleDayCounter(),
                                  ql.Following, [1], [0], True)
        self.eur_leg = eur_leg; self.usd_leg = usd_leg
        self.eur_notional = ql.Leg([ql.SimpleCashFlow(1.0, max(self.schedule))])
        self.usd_notional = ql.Leg([ql.SimpleCashFlow(1.0, max(self.schedule))])

    def npv(self, eur_discount_curve, usd_discount_curve):
        eur_npv = ql.CashFlows.npv(self.eur_leg, eur_discount_curve, True, self.pricing_date) \
                + ql.CashFlows.npv(self.eur_notional, eur_discount_curve, True, self.pricing_date)
        usd_npv = ql.CashFlows.npv(self.usd_leg, usd_discount_curve, True, self.pricing_date) \
                + ql.CashFlows.npv(self.usd_notional, usd_discount_curve, True, self.pricing_date)
        return eur_npv - usd_npv

    def fair_spread(self, eur_discount_curve, usd_discount_curve):
        from scipy.optimize import root_scalar
        inputs = self.inputs
        inputs.pop('spread_eur');
        return root_scalar(lambda spread: xccy_swap(**inputs, spread_eur=spread)
                              .npv(eur_discount_curve, usd_discount_curve), x0 = -0.1, x1 = 0.1).root
```
Dates are abstract integers, curves are opaque handles, and the QuantLib
routines (`OvernightLeg`/`SimpleCashFlow` construction and `CashFlows.npv`)
are kept symbolic: a leg is a descriptor recording exactly the arguments the
notebook passes, and `CashFlows.npv` is a function parameter.  `self.inputs`
(a Python dict) is the record of constructor-argument values together with
its key set; `inputs.pop` aliases and therefore mutates that key set.
Methods are state transformers `XccyState → Result × XccyState`; an
`AttributeError`/`KeyError` is an `Except` error. -/

/-- Opaque curve handles (`eur_curve`, `usd_curve`, `usd_curve_mod`). -/
inductive CurveId
  | eur
  | usd
  | usdMod
deriving DecidableEq

/-- The overnight index a leg accrues: `ql.Eonia(curve)` or `ql.Sofr(curve)`. -/
inductive IndexKind
  | eonia (fcst : CurveId)
  | sofr (fcst : CurveId)
deriving DecidableEq

/-- The schedule `ql.MakeSchedule(pricing_date, pricing_date + tenor_years, '1Y')`. -/
structure Schedule where
  start : ℤ
  tenorYears : ℕ
deriving DecidableEq

/-- The end date `max(self.schedule)` of the schedule. -/
def Schedule.maxDate (s : Schedule) : ℤ := s.start + s.tenorYears

/-- A cash-flow leg as the notebook builds it: either
`ql.OvernightLeg([notional], schedule, index, SimpleDayCounter(), Following, [1], [spread], telescopic)`
or the single-flow `ql.Leg([ql.SimpleCashFlow(amount, date)])`. -/
inductive Leg
  | overnightLeg (notional : ℝ) (sched : Schedule) (index : IndexKind) (spread : ℝ)
      (telescopic : Bool)
  | simpleCashFlow (amount : ℝ) (date : ℤ)

/-- Keys of the `self.inputs` dict (after `pop('self')`). -/
inductive InputKey
  | pricingDate
  | eurFcstCurve
  | usdFcstCurve
  | tenorYears
  | spreadEur
deriving DecidableEq

/-- The state of an `xccy_swap` object: the `inputs` dict (its key set plus
the stored argument values) and the attributes the methods set.  The four leg
attributes are `Option`s because `__init__` sets them only when `spread_eur`
is truthy; reading an unset one is Python's `AttributeError`. -/
structure XccyState where
  inputsKeys : List InputKey
  pricingDate : ℤ
  eurFcstCurve : CurveId
  usdFcstCurve : CurveId
  tenorYears : ℕ
  spreadEur : Option ℝ
  schedule : Schedule
  eurLeg : Option Leg
  usdLeg : Option Leg
  eurNotional : Option Leg
  usdNotional : Option Leg

/-- Python truthiness of the `spread_eur` argument (`None` and `0.0` are
falsy, every other float truthy). -/
def truthy : Option ℝ → Prop
  | none => False
  | some x => x ≠ 0

noncomputable instance (s : Option ℝ) : Decidable (truthy s) := by
  unfold truthy; cases s <;> infer_instance

/-- The errors the notebook code can raise in this model. -/
inductive PyError
  | attributeError
  | keyError
deriving DecidableEq

/-- `build_swap`: constructs the two overnight legs and the two notional
redemption flows and stores them on the object. -/
def build_swap (s : XccyState) (spread_eur : ℝ) : XccyState :=
  { s with
    eurLeg := some (.overnightLeg 1 s.schedule (.eonia s.eurFcstCurve) spread_eur true)
    usdLeg := some (.overnightLeg 1 s.schedule (.sofr s.usdFcstCurve) 0 true)
    eurNotional := some (.simpleCashFlow 1 s.schedule.maxDate)
    usdNotional := some (.simpleCashFlow 1 s.schedule.maxDate) }

/-- `__init__`: records the inputs, builds the schedule, and calls
`build_swap` only when `spread_eur` is truthy (the guard is `if spread_eur:`). -/
noncomputable def init (pricing_date : ℤ) (eur_fcst_curve usd_fcst_curve : CurveId)
    (tenor_years : ℕ) (spread_eur : Option ℝ) : XccyState :=
  let base : XccyState :=
    { inputsKeys := [.pricingDate, .eurFcstCurve, .usdFcstCurve, .tenorYears, .spreadEur]
      pricingDate := pricing_date
      eurFcstCurve := eur_fcst_curve
      usdFcstCurve := usd_fcst_curve
      tenorYears := tenor_years
      spreadEur := spread_eur
      schedule := ⟨pricing_date, tenor_years⟩
      eurLeg := none, usdLeg := none, eurNotional := none, usdNotional := none }
  if truthy spread_eur then build_swap base (spread_eur.getD 0) else base

/-- `npv`: reads the four leg attributes (an unset one raises
`AttributeError`), sums the QuantLib NPVs per currency and returns the EUR
side minus the USD side.  `qlNpv leg curve date` stands for
`ql.CashFlows.npv(leg, curve, True, date)`.  The state is returned unchanged:
the body assigns no attribute. -/
def npv (qlNpv : Leg → CurveId → ℤ → ℝ) (s : XccyState)
    (eur_discount_curve usd_discount_curve : CurveId) : Except PyError (ℝ × XccyState) :=
  match s.eurLeg, s.usdLeg, s.eurNotional, s.usdNotional with
  | some el, some ul, some en, some un =>
      let eur_npv := qlNpv el eur_discount_curve s.pricingDate +
        qlNpv en eur_discount_curve s.pricingDate
      let usd_npv := qlNpv ul usd_discount_curve s.pricingDate +
        qlNpv un usd_discount_curve s.pricingDate
      .ok (eur_npv - usd_npv, s)
  | _, _, _, _ => .error .attributeError

/-- The function handed to `root_scalar`: the NPV of a fresh `xccy_swap`
built from the stored inputs with the candidate spread. -/
noncomputable def spreadObjective (qlNpv : Leg → CurveId → ℤ → ℝ) (s : XccyState)
    (eur_discount_curve usd_discount_curve : CurveId) (spread : ℝ) : Except PyError ℝ :=
  (npv qlNpv (init s.pricingDate s.eurFcstCurve s.usdFcstCurve s.tenorYears (some spread))
      eur_discount_curve usd_discount_curve).map Prod.fst

/-- `fair_spread`: pops `spread_eur` from the (aliased) `inputs` dict — a
`KeyError` if the key is already gone, and a mutation of the object's stored
dict otherwise — then makes a single `root_scalar` call on the NPV objective
and returns its root.  `rootScalar` stands for
`scipy.optimize.root_scalar(..., x0=-0.1, x1=0.1).root`. -/
noncomputable def fair_spread (qlNpv : Leg → CurveId → ℤ → ℝ)
    (rootScalar : (ℝ → Except PyError ℝ) → ℝ) (s : XccyState)
    (eur_discount_curve usd_discount_curve : CurveId) : Except PyError (ℝ × XccyState) :=
  if InputKey.spreadEur ∈ s.inputsKeys then
    let s' := { s with inputsKeys := s.inputsKeys.erase .spreadEur }
    .ok (rootScalar (spreadObjective qlNpv s eur_discount_curve usd_discount_curve), s')
  else .error .keyError

/-- Unfolding of `__init__` for a truthy (non-zero) spread: the guard fires
and `build_swap` sets the four leg attributes. -/
theorem init_truthy (d : ℤ) (ec uc : CurveId) (ty : ℕ) (spread : ℝ) (hspread : spread ≠ 0) :
    init d ec uc ty (some spread) =
      { inputsKeys := [.pricingDate, .eurFcstCurve, .usdFcstCurve, .tenorYears, .spreadEur]
        pricingDate := d, eurFcstCurve := ec, usdFcstCurve := uc, tenorYears := ty
        spreadEur := some spread, schedule := ⟨d, ty⟩
        eurLeg := some (.overnightLeg 1 ⟨d, ty⟩ (.eonia ec) spread true)
        usdLeg := some (.overnightLeg 1 ⟨d, ty⟩ (.sofr uc) 0 true)
        eurNotional := some (.simpleCashFlow 1 (d + ty))
        usdNotional := some (.simpleCashFlow 1 (d + ty)) } := by
  unfold init
  rw [if_pos (show truthy (some spread) from hspread)]
  rfl

/-- C5: for every tenor (and every choice of the library oracles), a truthy
spread makes `__init__` build exactly two overnight cash-flow legs — the EUR
leg with the EUR spread and the USD leg with spread 0 — plus one notional
redemption flow per currency at the schedule end; `npv` returns the EUR-side
NPV minus the USD-side NPV and nothing else; and `fair_spread` makes a single
`root_scalar` call whose returned spread, whenever the root finder returns a
root of the objective, gives a swap of zero NPV. -/
theorem xccy_swap_correct (qlNpv : Leg → CurveId → ℤ → ℝ)
    (rootScalar : (ℝ → Except PyError ℝ) → ℝ)
    (d : ℤ) (ec uc : CurveId) (ty : ℕ) (spread : ℝ) (eurD usdD : CurveId)
    (hspread : spread ≠ 0)
    (hroot : spreadObjective qlNpv (init d ec uc ty (some spread)) eurD usdD
        (rootScalar (spreadObjective qlNpv (init d ec uc ty (some spread)) eurD usdD)) =
      .ok 0) :
    (init d ec uc ty (some spread)).eurLeg =
        some (.overnightLeg 1 ⟨d, ty⟩ (.eonia ec) spread true)
    ∧ (init d ec uc ty (some spread)).usdLeg =
        some (.overnightLeg 1 ⟨d, ty⟩ (.sofr uc) 0 true)
    ∧ (init d ec uc ty (some spread)).eurNotional = some (.simpleCashFlow 1 (d + ty))
    ∧ (init d ec uc ty (some spread)).usdNotional = some (.simpleCashFlow 1 (d + ty))
    ∧ npv qlNpv (init d ec uc ty (some spread)) eurD usdD =
        .ok ((qlNpv (.overnightLeg 1 ⟨d, ty⟩ (.eonia ec) spread true) eurD d +
              qlNpv (.simpleCashFlow 1 (d + ty)) eurD d) -
             (qlNpv (.overnightLeg 1 ⟨d, ty⟩ (.sofr uc) 0 true) usdD d +
              qlNpv (.simpleCashFlow 1 (d + ty)) usdD d),
          init d ec uc ty (some spread))
    ∧ (∀ r s', fair_spread qlNpv rootScalar (init d ec uc ty (some spread)) eurD usdD =
          .ok (r, s') →
        spreadObjective qlNpv (init d ec uc ty (some spread)) eurD usdD r = .ok 0) := by
  rw [init_truthy d ec uc ty spread hspread]
  refine ⟨rfl, rfl, rfl, rfl, rfl, ?_⟩
  intro r s' hfs
  rw [init_truthy d ec uc ty spread hspread] at hroot
  unfold fair_spread at hfs
  rw [if_pos (by simp)] at hfs
  simp only [Except.ok.injEq, Prod.mk.injEq] at hfs
  rw [← hfs.1]
  exact hroot

/-- Witness for `xccy_swap_correct` with concrete inputs and oracles: every
library NPV is 0 and the root finder returns the constant 1/100. -/
theorem xccy_swap_correct_witness :
    (init 0 .eur .usd 2 (some (1/100))).eurLeg =
        some (.overnightLeg 1 ⟨0, 2⟩ (.eonia .eur) (1/100) true)
    ∧ (init 0 .eur .usd 2 (some (1/100))).usdLeg =
        some (.overnightLeg 1 ⟨0, 2⟩ (.sofr .usd) 0 true)
    ∧ (init 0 .eur .usd 2 (some (1/100))).eurNotional =
        some (.simpleCashFlow 1 ((0:ℤ) + (2:ℕ)))
    ∧ (init 0 .eur .usd 2 (some (1/100))).usdNotional =
        some (.simpleCashFlow 1 ((0:ℤ) + (2:ℕ)))
    ∧ npv (fun _ _ _ => 0) (init 0 .eur .usd 2 (some (1/100))) .eur .usdMod =
        .ok (((0:ℝ) + 0) - ((0:ℝ) + 0), init 0 .eur .usd 2 (some (1/100)))
    ∧ (∀ r s', fair_spread (fun _ _ _ => 0) (fun _ => 1/100)
          (init 0 .eur .usd 2 (some (1/100))) .eur .usdMod = .ok (r, s') →
        spreadObjective (fun _ _ _ => 0) (init 0 .eur .usd 2 (some (1/100))) .eur .usdMod r =
          .ok 0) :=
  xccy_swap_correct (fun _ _ _ => 0) (fun _ => 1/100) 0 .eur .usd 2 (1/100) .eur .usdMod
    (by norm_num)
    (by
      unfold spreadObjective
      rw [show (init 0 .eur .usd 2 (some ((1:ℝ)/100))).pricingDate = 0 from by
            rw [init_truthy 0 .eur .usd 2 (1/100) (by norm_num)],
          show (init 0 .eur .usd 2 (some ((1:ℝ)/100))).eurFcstCurve = .eur from by
            rw [init_truthy 0 .eur .usd 2 (1/100) (by norm_num)],
          show (init 0 .eur .usd 2 (some ((1:ℝ)/100))).usdFcstCurve = .usd from by
            rw [init_truthy 0 .eur .usd 2 (1/100) (by norm_num)],
          show (init 0 .eur .usd 2 (some ((1:ℝ)/100))).tenorYears = 2 from by
            rw [init_truthy 0 .eur .usd 2 (1/100) (by norm_num)],
          init_truthy 0 .eur .usd 2 (1/100) (by norm_num)]
      simp [npv, Except.map])

/-- Unfolding of `__init__` for a falsy spread (`None` or `0.0`): the guard
`if spread_eur:` does not fire and no leg attribute is set. -/
theorem init_falsy (d : ℤ) (ec uc : CurveId) (ty : ℕ) (spread : Option ℝ)
    (h : ¬ truthy spread) :
    init d ec uc ty spread =
      { inputsKeys := [.pricingDate, .eurFcstCurve, .usdFcstCurve, .tenorYears, .spreadEur]
        pricingDate := d, eurFcstCurve := ec, usdFcstCurve := uc, tenorYears := ty
        spreadEur := spread, schedule := ⟨d, ty⟩
        eurLeg := none, usdLeg := none, eurNotional := none, usdNotional := none } := by
  unfold init
  rw [if_neg h]

/-- C7 (amended): `npv` returns the `xccy_swap` object unchanged, and
`fair_spread` returns it changed in exactly one stored field — the `inputs`
dict, from which the aliased `inputs.pop('spread_eur')` removes the
`spread_eur` key. -/
theorem pricing_ops_frame (qlNpv : Leg → CurveId → ℤ → ℝ)
    (rootScalar : (ℝ → Except PyError ℝ) → ℝ) (s : XccyState) (eurD usdD : CurveId) :
    (∀ v s', npv qlNpv s eurD usdD = .ok (v, s') → s' = s)
    ∧ (∀ r s', fair_spread qlNpv rootScalar s eurD usdD = .ok (r, s') →
        s' = { s with inputsKeys := s.inputsKeys.erase .spreadEur }) := by
  constructor
  · intro v s' h
    unfold npv at h
    split at h
    · simp only [Except.ok.injEq, Prod.mk.injEq] at h
      exact h.2.symm
    · exact Except.noConfusion h
  · intro r s' h
    unfold fair_spread at h
    split at h
    · simp only [Except.ok.injEq, Prod.mk.injEq] at h
      exact h.2.symm
    · exact Except.noConfusion h

/-- C7 counterexample: on a concretely constructed `xccy_swap`, one call of
the pricing operation `fair_spread` changes the object's stored `inputs`
dict — the `spread_eur` key is gone afterwards — so pricing operations do not
all leave the instrument's stored fields unchanged. -/
theorem fair_spread_mutates_example :
    (fair_spread (fun _ _ _ => 0) (fun _ => 1/100) (init 0 .eur .usd 2 (some (1/100)))
          .eur .usdMod).map (fun p => p.2.inputsKeys) =
      .ok [InputKey.pricingDate, .eurFcstCurve, .usdFcstCurve, .tenorYears]
    ∧ (init 0 .eur .usd 2 (some (1/100))).inputsKeys =
        [InputKey.pricingDate, .eurFcstCurve, .usdFcstCurve, .tenorYears, .spreadEur]
    ∧ [InputKey.pricingDate, .eurFcstCurve, .usdFcstCurve, .tenorYears] ≠
        [InputKey.pricingDate, .eurFcstCurve, .usdFcstCurve, .tenorYears, .spreadEur] := by
  refine ⟨?_, ?_, by decide⟩
  · rw [init_truthy 0 .eur .usd 2 (1/100) (by norm_num)]
    simp only [fair_spread, Except.map]
    norm_num
    decide
  · rw [init_truthy 0 .eur .usd 2 (1/100) (by norm_num)]

/-- C10: `npv` succeeds exactly when the object was constructed with a
non-`None`, non-zero spread; with `spread_eur = None` or `0.0` the guard
`if spread_eur:` skips `build_swap`, the leg attributes stay unset, and `npv`
raises `AttributeError`. -/
theorem npv_succeeds_iff_truthy_spread (qlNpv : Leg → CurveId → ℤ → ℝ)
    (d : ℤ) (ec uc : CurveId) (ty : ℕ) (spread : Option ℝ) (eurD usdD : CurveId) :
    ((∃ v s', npv qlNpv (init d ec uc ty spread) eurD usdD = .ok (v, s')) ↔
      ∃ x, spread = some x ∧ x ≠ 0)
    ∧ ((spread = none ∨ spread = some 0) →
        (init d ec uc ty spread).eurLeg = none
        ∧ npv qlNpv (init d ec uc ty spread) eurD usdD = .error .attributeError) := by
  constructor
  · constructor
    · rintro ⟨v, s', hok⟩
      by_contra hnot
      have hfal : ¬ truthy spread := by
        cases spread with
        | none => simp [truthy]
        | some x =>
          simp only [truthy]
          intro hx
          exact hnot ⟨x, rfl, hx⟩
      rw [init_falsy d ec uc ty spread hfal] at hok
      exact Except.noConfusion hok
    · rintro ⟨x, rfl, hx⟩
      rw [init_truthy d ec uc ty x hx]
      exact ⟨_, _, rfl⟩
  · intro hcase
    have hfal : ¬ truthy spread := by
      rcases hcase with rfl | rfl <;> simp [truthy]
    rw [init_falsy d ec uc ty spread hfal]
    exact ⟨rfl, rfl⟩

end Xccy

namespace Swaption

/-! ## Swaption.ipynb, analytic swaption formula

Source:
```
def swaption_formula(S, K, A, expiry, sigma, payer_receiver, model = 'lognormal', shift = 0.0):
    w = {'payer': 1, 'receiver':-1}[payer_receiver.lower()]
    if model.lower() == 'lognormal':
        d1 = (np.log((S+shift)/(K+shift)) + 0.5* sigma**2 * expiry)/(sigma*np.sqrt(expiry))
        d2 = d1 - sigma*np.sqrt(expiry)
        return (w*(S+shift)*norm.cdf(w*d1) - w*(K+shift)*norm.cdf(w*d2))*A
    if model.lower() == 'normal':
        d = (S - K)/(sigma*np.sqrt(expiry))
        return A*sigma*np.sqrt(expiry)*(norm.pdf(d)+w*d*norm.cdf(w*d))
```
The library functions `norm.pdf`/`norm.cdf` are the standard normal density
and its cumulative integral; the `payer_receiver` and `model` strings are the
two-valued enumerations the dict lookup and the two guards accept. -/

/-- The library's `norm.pdf`: the standard normal density. -/
noncomputable def stdNormalPdf (x : ℝ) : ℝ :=
  (Real.sqrt (2 * Real.pi))⁻¹ * Real.exp (-(x ^ 2) / 2)

/-- The library's `norm.cdf`: the standard normal CDF, as its defining
integral. -/
noncomputable def normalCdf (x : ℝ) : ℝ := ∫ t in Set.Iic x, stdNormalPdf t

theorem stdNormalPdf_pos (x : ℝ) : 0 < stdNormalPdf x :=
  mul_pos (inv_pos.mpr (Real.sqrt_pos.mpr (mul_pos two_pos Real.pi_pos)))
    (Real.exp_pos _)

theorem stdNormalPdf_even (x : ℝ) : stdNormalPdf (-x) = stdNormalPdf x := by
  unfold stdNormalPdf
  rw [neg_sq]

theorem continuous_stdNormalPdf : Continuous stdNormalPdf := by
  unfold stdNormalPdf
  fun_prop

theorem integrable_stdNormalPdf : MeasureTheory.Integrable stdNormalPdf := by
  have h := (integrable_exp_neg_mul_sq (show (0:ℝ) < 1/2 by norm_num)).const_mul
    (Real.sqrt (2 * Real.pi))⁻¹
  refine h.congr (Filter.Eventually.of_forall fun x => ?_)
  show (Real.sqrt (2 * Real.pi))⁻¹ * Real.exp (-(1/2 : ℝ) * x ^ 2) = stdNormalPdf x
  unfold stdNormalPdf
  rw [show -(1/2 : ℝ) * x ^ 2 = -(x ^ 2) / 2 by ring]

theorem hasDerivAt_stdNormalPdf (x : ℝ) :
    HasDerivAt stdNormalPdf (-x * stdNormalPdf x) x := by
  have h1 : HasDerivAt (fun u : ℝ => -(u ^ 2) / 2) (-x) x := by
    have h0 := ((hasDerivAt_pow 2 x).neg).div_const 2
    convert h0 using 1
    push_cast
    ring
  have h2 := (h1.exp).const_mul (Real.sqrt (2 * Real.pi))⁻¹
  have hval : -x * stdNormalPdf x =
      (Real.sqrt (2 * Real.pi))⁻¹ * (Real.exp (-(x ^ 2) / 2) * -x) := by
    unfold stdNormalPdf; ring
  rw [hval]
  exact h2

theorem stdNormalPdf_tendsto_atBot :
    Filter.Tendsto stdNormalPdf Filter.atBot (nhds 0) := by
  have hsq : Filter.Tendsto (fun u : ℝ => u ^ 2) Filter.atBot Filter.atTop := by
    have h := (Filter.tendsto_pow_atTop (two_ne_zero)).comp
      (Filter.tendsto_abs_atBot_atTop (α := ℝ))
    refine h.congr fun u => ?_
    simp [sq_abs]
  have hexp : Filter.Tendsto (fun u : ℝ => Real.exp (-(u ^ 2) / 2)) Filter.atBot (nhds 0) := by
    apply Real.tendsto_exp_atBot.comp
    have h2 := (hsq.atTop_div_const (show (0:ℝ) < 2 by norm_num))
    have hneg := Filter.tendsto_neg_atTop_atBot.comp h2
    refine hneg.congr fun u => ?_
    simp [neg_div]
  have h3 := hexp.const_mul (Real.sqrt (2 * Real.pi))⁻¹
  rw [mul_zero] at h3
  exact h3

theorem integrable_mul_stdNormalPdf :
    MeasureTheory.Integrable (fun t : ℝ => t * stdNormalPdf t) := by
  have h := (integrable_mul_exp_neg_mul_sq (show (0:ℝ) < 1/2 by norm_num)).const_mul
    (Real.sqrt (2 * Real.pi))⁻¹
  refine h.congr (Filter.Eventually.of_forall fun x => ?_)
  show (Real.sqrt (2 * Real.pi))⁻¹ * (x * Real.exp (-(1/2 : ℝ) * x ^ 2)) = x * stdNormalPdf x
  unfold stdNormalPdf
  rw [show -(1/2 : ℝ) * x ^ 2 = -(x ^ 2) / 2 by ring]
  ring

theorem hasDerivAt_normalCdf (x : ℝ) :
    HasDerivAt normalCdf (stdNormalPdf x) x := by
  have key : ∀ y : ℝ, normalCdf y = normalCdf 0 + ∫ t in (0 : ℝ)..y, stdNormalPdf t := by
    intro y
    have h := intervalIntegral.integral_Iic_sub_Iic
      (integrable_stdNormalPdf.integrableOn) (integrable_stdNormalPdf.integrableOn)
      (a := (0:ℝ)) (b := y)
    unfold normalCdf
    linarith [h]
  have h2 : HasDerivAt (fun u : ℝ => normalCdf 0 + ∫ t in (0 : ℝ)..u, stdNormalPdf t)
      (stdNormalPdf x) x :=
    ((continuous_stdNormalPdf.integral_hasStrictDerivAt 0 x).hasDerivAt).const_add (normalCdf 0)
  have hfun : (fun u : ℝ => normalCdf 0 + ∫ t in (0 : ℝ)..u, stdNormalPdf t) = normalCdf :=
    funext fun u => (key u).symm
  rw [← hfun]
  exact h2

theorem normalCdf_nonneg (x : ℝ) : 0 ≤ normalCdf x :=
  MeasureTheory.setIntegral_nonneg measurableSet_Iic fun t _ => (stdNormalPdf_pos t).le

theorem integral_Iic_id_mul_stdNormalPdf (x : ℝ) :
    ∫ t in Set.Iic x, t * stdNormalPdf t = -stdNormalPdf x := by
  have hderiv : ∀ t ∈ Set.Iic x,
      HasDerivAt (fun u : ℝ => -stdNormalPdf u) (t * stdNormalPdf t) t := by
    intro t _
    have h := (hasDerivAt_stdNormalPdf t).neg
    have heq : -(-t * stdNormalPdf t) = t * stdNormalPdf t := by ring
    rwa [heq] at h
  have hint : MeasureTheory.IntegrableOn (fun t : ℝ => t * stdNormalPdf t) (Set.Iic x) :=
    integrable_mul_stdNormalPdf.integrableOn
  have htend : Filter.Tendsto (fun u : ℝ => -stdNormalPdf u) Filter.atBot (nhds 0) := by
    have h := stdNormalPdf_tendsto_atBot.neg
    simpa using h
  have h := MeasureTheory.integral_Iic_of_hasDerivAt_of_tendsto' hderiv hint htend
  simpa using h

/-- The Mills-ratio bound: the function `φ(x) + x·Φ(x)` is non-negative. -/
theorem mills_bound (x : ℝ) : 0 ≤ stdNormalPdf x + x * normalCdf x := by
  rcases le_or_lt 0 x with hx | hx
  · have h1 := normalCdf_nonneg x
    have h2 := (stdNormalPdf_pos x).le
    nlinarith
  · have hxne : x ≠ 0 := ne_of_lt hx
    have hcomp : normalCdf x ≤ ∫ t in Set.Iic x, x⁻¹ * (t * stdNormalPdf t) := by
      unfold normalCdf
      apply MeasureTheory.setIntegral_mono_on
      · exact integrable_stdNormalPdf.integrableOn
      · exact (integrable_mul_stdNormalPdf.const_mul x⁻¹).integrableOn
      · exact measurableSet_Iic
      · intro t ht
        have hle : t ≤ x := ht
        have h1 : 1 ≤ t / x := by
          rw [le_div_iff_of_neg hx]
          linarith
        have h2 : x⁻¹ * (t * stdNormalPdf t) = (t / x) * stdNormalPdf t := by ring
        rw [h2]
        exact le_mul_of_one_le_left (stdNormalPdf_pos t).le h1
    rw [MeasureTheory.integral_mul_left, integral_Iic_id_mul_stdNormalPdf] at hcomp
    have hmul := mul_le_mul_of_nonpos_left hcomp hx.le
    have heq : x * (x⁻¹ * -stdNormalPdf x) = -stdNormalPdf x := by
      field_simp
      ring
    rw [heq] at hmul
    linarith

theorem hasDerivAt_expHalfSq_mul_cdf (x : ℝ) :
    HasDerivAt (fun u : ℝ => Real.exp (u ^ 2 / 2) * normalCdf u)
      (Real.exp (x ^ 2 / 2) * (stdNormalPdf x + x * normalCdf x)) x := by
  have h1 : HasDerivAt (fun u : ℝ => u ^ 2 / 2) x x := by
    have h0 := (hasDerivAt_pow 2 x).div_const 2
    convert h0 using 1
    push_cast
    ring
  have h2 := h1.exp
  have h3 := h2.mul (hasDerivAt_normalCdf x)
  convert h3 using 1
  ring

/-- The function `e^{x²/2}·Φ(x)` is monotone: its derivative is
`e^{x²/2}·(φ(x)+x·Φ(x)) ≥ 0` by the Mills bound. -/
theorem monotone_expHalfSq_mul_cdf :
    Monotone (fun u : ℝ => Real.exp (u ^ 2 / 2) * normalCdf u) := by
  have hdiff : Differentiable ℝ (fun u : ℝ => Real.exp (u ^ 2 / 2) * normalCdf u) :=
    fun x => (hasDerivAt_expHalfSq_mul_cdf x).differentiableAt
  apply monotone_of_deriv_nonneg hdiff
  intro x
  rw [(hasDerivAt_expHalfSq_mul_cdf x).deriv]
  exact mul_nonneg (Real.exp_pos _).le (mills_bound x)

/-- The two values the dict lookup
`{'payer': 1, 'receiver': -1}[payer_receiver.lower()]` accepts. -/
inductive PayRec
  | payer
  | receiver
deriving DecidableEq

/-- The looked-up sign `w`. -/
noncomputable def w : PayRec → ℝ
  | .payer => 1
  | .receiver => -1

/-- The two model strings the guards accept. -/
inductive Model
  | lognormal
  | normal
deriving DecidableEq

/-- The source's `swaption_formula`. -/
noncomputable def swaption_formula (S K A expiry sigma : ℝ) (payer_receiver : PayRec)
    (model : Model) (shift : ℝ) : ℝ :=
  match model with
  | .lognormal =>
    let d1 := (Real.log ((S + shift) / (K + shift)) + 0.5 * sigma ^ 2 * expiry) /
      (sigma * Real.sqrt expiry)
    let d2 := d1 - sigma * Real.sqrt expiry
    (w payer_receiver * (S + shift) * normalCdf (w payer_receiver * d1) -
      w payer_receiver * (K + shift) * normalCdf (w payer_receiver * d2)) * A
  | .normal =>
    let d := (S - K) / (sigma * Real.sqrt expiry)
    A * sigma * Real.sqrt expiry *
      (stdNormalPdf d + w payer_receiver * d * normalCdf (w payer_receiver * d))

theorem w_cases (pr : PayRec) : w pr = 1 ∨ w pr = -1 := by
  cases pr
  · exact Or.inl rfl
  · exact Or.inr rfl

/-- The Black-formula identity `F·φ(d1) = K·φ(d2)`. -/
theorem pdf_identity (F Kp u d1 d2 : ℝ) (hF : 0 < F) (hK : 0 < Kp) (hu : u ≠ 0)
    (hd1 : d1 = (Real.log (F / Kp) + u ^ 2 / 2) / u) (hd2 : d2 = d1 - u) :
    F * stdNormalPdf d1 = Kp * stdNormalPdf d2 := by
  have hd : d1 ^ 2 - d2 ^ 2 = 2 * Real.log (F / Kp) := by
    subst hd2; subst hd1
    field_simp
    ring
  have h1 : F = Kp * Real.exp (Real.log (F / Kp)) := by
    rw [Real.exp_log (div_pos hF hK)]
    field_simp
  have key : F * Real.exp (-(d1 ^ 2) / 2) = Kp * Real.exp (-(d2 ^ 2) / 2) := by
    nth_rewrite 1 [h1]
    rw [mul_assoc, ← Real.exp_add]
    rw [show Real.log (F / Kp) + -(d1 ^ 2) / 2 = -(d2 ^ 2) / 2 from by linarith]
  calc F * stdNormalPdf d1
      = (Real.sqrt (2 * Real.pi))⁻¹ * (F * Real.exp (-(d1 ^ 2) / 2)) := by
        unfold stdNormalPdf; ring
    _ = (Real.sqrt (2 * Real.pi))⁻¹ * (Kp * Real.exp (-(d2 ^ 2) / 2)) := by rw [key]
    _ = Kp * stdNormalPdf d2 := by unfold stdNormalPdf; ring

/-- The core non-negativity inequality of the Black formula:
`K·Φ(d2) ≤ F·Φ(d1)`, via monotonicity of `e^{x²/2}·Φ(x)`. -/
theorem black_cdf_le (F Kp u d1 d2 : ℝ) (hF : 0 < F) (hK : 0 < Kp) (hu : 0 < u)
    (hd1 : d1 = (Real.log (F / Kp) + u ^ 2 / 2) / u) (hd2 : d2 = d1 - u) :
    Kp * normalCdf d2 ≤ F * normalCdf d1 := by
  have hd : d1 ^ 2 - d2 ^ 2 = 2 * Real.log (F / Kp) := by
    subst hd2; subst hd1
    field_simp
    ring
  have hdle : d2 ≤ d1 := by rw [hd2]; linarith
  have hM := monotone_expHalfSq_mul_cdf hdle
  have h1 : Kp * normalCdf d2 =
      Kp * Real.exp (-(d2 ^ 2) / 2) * (Real.exp (d2 ^ 2 / 2) * normalCdf d2) := by
    rw [show Kp * Real.exp (-(d2 ^ 2) / 2) * (Real.exp (d2 ^ 2 / 2) * normalCdf d2)
        = Kp * (Real.exp (-(d2 ^ 2) / 2) * Real.exp (d2 ^ 2 / 2)) * normalCdf d2 from by ring,
      ← Real.exp_add,
      show -(d2 ^ 2) / 2 + d2 ^ 2 / 2 = (0:ℝ) from by ring,
      Real.exp_zero, mul_one]
  have h2 : Kp * Real.exp (-(d2 ^ 2) / 2) * (Real.exp (d2 ^ 2 / 2) * normalCdf d2)
      ≤ Kp * Real.exp (-(d2 ^ 2) / 2) * (Real.exp (d1 ^ 2 / 2) * normalCdf d1) := by
    apply mul_le_mul_of_nonneg_left hM
    positivity
  have h3 : Kp * Real.exp (-(d2 ^ 2) / 2) * (Real.exp (d1 ^ 2 / 2) * normalCdf d1)
      = F * normalCdf d1 := by
    rw [show Kp * Real.exp (-(d2 ^ 2) / 2) * (Real.exp (d1 ^ 2 / 2) * normalCdf d1)
        = Kp * (Real.exp (-(d2 ^ 2) / 2) * Real.exp (d1 ^ 2 / 2)) * normalCdf d1 from by ring,
      ← Real.exp_add]
    rw [show -(d2 ^ 2) / 2 + d1 ^ 2 / 2 = Real.log (F / Kp) from by linarith]
    rw [Real.exp_log (div_pos hF hK)]
    field_simp
  linarith

/-- The receiver-side inequality `F·Φ(-d1) ≤ K·Φ(-d2)`, by the symmetry
`-d2 = (log(K/F)+u²/2)/u`. -/
theorem black_cdf_le_receiver (F Kp u d1 d2 : ℝ) (hF : 0 < F) (hK : 0 < Kp) (hu : 0 < u)
    (hd1 : d1 = (Real.log (F / Kp) + u ^ 2 / 2) / u) (hd2 : d2 = d1 - u) :
    F * normalCdf (-d1) ≤ Kp * normalCdf (-d2) := by
  have hlog : Real.log (Kp / F) = -Real.log (F / Kp) := by
    rw [← Real.log_inv]
    congr 1
    field_simp
  apply black_cdf_le Kp F u (-d2) (-d1) hK hF hu
  · rw [hd2, hd1, hlog]
    field_simp
    ring
  · rw [hd2]
    ring

/-- Non-negativity of the lognormal (Black) payoff term, payer and receiver. -/
theorem blackFn_nonneg (F Kp A ww u d1 d2 : ℝ) (hw : ww = 1 ∨ ww = -1)
    (hF : 0 < F) (hK : 0 < Kp) (hA : 0 ≤ A) (hu : 0 < u)
    (hd1 : d1 = (Real.log (F / Kp) + u ^ 2 / 2) / u) (hd2 : d2 = d1 - u) :
    0 ≤ (ww * F * normalCdf (ww * d1) - ww * Kp * normalCdf (ww * d2)) * A := by
  apply mul_nonneg _ hA
  rcases hw with rfl | rfl
  · simp only [one_mul]
    have h := black_cdf_le F Kp u d1 d2 hF hK hu hd1 hd2
    linarith
  · have h := black_cdf_le_receiver F Kp u d1 d2 hF hK hu hd1 hd2
    rw [show (-1:ℝ) * d1 = -d1 from by ring, show (-1:ℝ) * d2 = -d2 from by ring]
    nlinarith [h]

/-- Non-negativity of the Bachelier bracket `φ(d) + w·d·Φ(w·d)`, payer and
receiver, by the Mills bound. -/
theorem bachelier_bracket_nonneg (ww d : ℝ) (hw : ww = 1 ∨ ww = -1) :
    0 ≤ stdNormalPdf d + ww * d * normalCdf (ww * d) := by
  rcases hw with rfl | rfl
  · simpa using mills_bound d
  · have h := mills_bound (-d)
    rw [stdNormalPdf_even] at h
    rw [show (-1:ℝ) * d = -d from by ring]
    nlinarith [h]

/-- Derivative in `sigma` of the lognormal (Black) branch: the vega
`A·F·φ(d1)·√T`, using the identity `K·φ(d2) = F·φ(d1)`. -/
theorem hasDerivAt_blackFn (F Kp A T ww : ℝ) (hw : ww = 1 ∨ ww = -1)
    (hF : 0 < F) (hK : 0 < Kp) (hT : 0 < T) {sigma : ℝ} (hs : 0 < sigma) :
    HasDerivAt (fun s : ℝ =>
        (ww * F * normalCdf (ww * ((Real.log (F / Kp) + 0.5 * s ^ 2 * T) / (s * Real.sqrt T))) -
          ww * Kp * normalCdf (ww * ((Real.log (F / Kp) + 0.5 * s ^ 2 * T) / (s * Real.sqrt T) -
            s * Real.sqrt T))) * A)
      (A * (F * stdNormalPdf ((Real.log (F / Kp) + 0.5 * sigma ^ 2 * T) /
        (sigma * Real.sqrt T)) * Real.sqrt T)) sigma := by
  have hsT : 0 < Real.sqrt T := Real.sqrt_pos.mpr hT
  have hden : sigma * Real.sqrt T ≠ 0 := by positivity
  set L := Real.log (F / Kp) with hLdef
  have hnum : HasDerivAt (fun s : ℝ => L + 0.5 * s ^ 2 * T) (0.5 * (2 * sigma) * T) sigma := by
    have h := (((hasDerivAt_pow 2 sigma).const_mul (0.5:ℝ)).mul_const T).const_add L
    convert h using 1
    push_cast
    ring
  have hdenf : HasDerivAt (fun s : ℝ => s * Real.sqrt T) (Real.sqrt T) sigma := by
    simpa using (hasDerivAt_id sigma).mul_const (Real.sqrt T)
  set dd := (0.5 * (2 * sigma) * T * (sigma * Real.sqrt T) -
    (L + 0.5 * sigma ^ 2 * T) * Real.sqrt T) / (sigma * Real.sqrt T) ^ 2 with hdddef
  set d1s := (L + 0.5 * sigma ^ 2 * T) / (sigma * Real.sqrt T) with hd1sdef
  have hd1 : HasDerivAt (fun s : ℝ => (L + 0.5 * s ^ 2 * T) / (s * Real.sqrt T)) dd sigma :=
    hnum.div hdenf hden
  have hd2 : HasDerivAt (fun s : ℝ =>
      (L + 0.5 * s ^ 2 * T) / (s * Real.sqrt T) - s * Real.sqrt T)
      (dd - Real.sqrt T) sigma := hd1.sub hdenf
  have hphi1 : HasDerivAt (fun s : ℝ =>
      normalCdf (ww * ((L + 0.5 * s ^ 2 * T) / (s * Real.sqrt T))))
      (stdNormalPdf (ww * d1s) * (ww * dd)) sigma :=
    (hasDerivAt_normalCdf (ww * d1s)).comp sigma (hd1.const_mul ww)
  have hphi2 : HasDerivAt (fun s : ℝ =>
      normalCdf (ww * ((L + 0.5 * s ^ 2 * T) / (s * Real.sqrt T) - s * Real.sqrt T)))
      (stdNormalPdf (ww * (d1s - sigma * Real.sqrt T)) * (ww * (dd - Real.sqrt T))) sigma :=
    (hasDerivAt_normalCdf (ww * (d1s - sigma * Real.sqrt T))).comp sigma (hd2.const_mul ww)
  have htotal : HasDerivAt (fun s : ℝ =>
      (ww * F * normalCdf (ww * ((L + 0.5 * s ^ 2 * T) / (s * Real.sqrt T))) -
        ww * Kp * normalCdf (ww * ((L + 0.5 * s ^ 2 * T) / (s * Real.sqrt T) -
          s * Real.sqrt T))) * A)
      ((ww * F * (stdNormalPdf (ww * d1s) * (ww * dd)) -
        ww * Kp * (stdNormalPdf (ww * (d1s - sigma * Real.sqrt T)) * (ww * (dd - Real.sqrt T)))) * A)
      sigma :=
    ((hphi1.const_mul (ww * F)).sub (hphi2.const_mul (ww * Kp))).mul_const A
  have hid : Kp * stdNormalPdf (d1s - sigma * Real.sqrt T) = F * stdNormalPdf d1s := by
    have hd1eq : d1s = (Real.log (F / Kp) + (sigma * Real.sqrt T) ^ 2 / 2) /
        (sigma * Real.sqrt T) := by
      rw [hd1sdef, ← hLdef, mul_pow, Real.sq_sqrt hT.le]
      ring_nf
    exact (pdf_identity F Kp (sigma * Real.sqrt T) d1s (d1s - sigma * Real.sqrt T)
      hF hK hden hd1eq rfl).symm
  convert htotal using 1
  rcases hw with rfl | rfl
  · simp only [one_mul]
    linear_combination (A * (dd - Real.sqrt T)) * hid
  · rw [show (-1:ℝ) * d1s = -d1s from by ring,
      show (-1:ℝ) * (d1s - sigma * Real.sqrt T) = -(d1s - sigma * Real.sqrt T) from by ring,
      stdNormalPdf_even, stdNormalPdf_even]
    linear_combination (A * (dd - Real.sqrt T)) * hid

/-- Derivative in `sigma` of the normal (Bachelier) branch: `A·√T·φ(d)`. -/
theorem hasDerivAt_bachelierFn (A T m ww : ℝ) (hw : ww = 1 ∨ ww = -1) (hT : 0 < T)
    {sigma : ℝ} (hs : 0 < sigma) :
    HasDerivAt (fun s : ℝ => A * s * Real.sqrt T *
        (stdNormalPdf (m / (s * Real.sqrt T)) +
          ww * (m / (s * Real.sqrt T)) * normalCdf (ww * (m / (s * Real.sqrt T)))))
      (A * Real.sqrt T * stdNormalPdf (m / (sigma * Real.sqrt T))) sigma := by
  have hsT : 0 < Real.sqrt T := Real.sqrt_pos.mpr hT
  have hden : sigma * Real.sqrt T ≠ 0 := by positivity
  have hdenf : HasDerivAt (fun s : ℝ => s * Real.sqrt T) (Real.sqrt T) sigma := by
    simpa using (hasDerivAt_id sigma).mul_const (Real.sqrt T)
  set dd := (0 * (sigma * Real.sqrt T) - m * Real.sqrt T) / (sigma * Real.sqrt T) ^ 2 with hdddef
  set ds := m / (sigma * Real.sqrt T) with hdsdef
  have hd : HasDerivAt (fun s : ℝ => m / (s * Real.sqrt T)) dd sigma :=
    (hasDerivAt_const sigma m).div hdenf hden
  have hphi : HasDerivAt (fun s : ℝ => stdNormalPdf (m / (s * Real.sqrt T)))
      (-ds * stdNormalPdf ds * dd) sigma := by
    exact (hasDerivAt_stdNormalPdf ds).comp sigma hd
  have hwd : HasDerivAt (fun s : ℝ => ww * (m / (s * Real.sqrt T))) (ww * dd) sigma :=
    hd.const_mul ww
  have hPhi : HasDerivAt (fun s : ℝ => normalCdf (ww * (m / (s * Real.sqrt T))))
      (stdNormalPdf (ww * ds) * (ww * dd)) sigma :=
    (hasDerivAt_normalCdf (ww * ds)).comp sigma hwd
  have hprod : HasDerivAt (fun s : ℝ =>
      ww * (m / (s * Real.sqrt T)) * normalCdf (ww * (m / (s * Real.sqrt T))))
      ((ww * dd) * normalCdf (ww * ds) + (ww * ds) * (stdNormalPdf (ww * ds) * (ww * dd)))
      sigma := hwd.mul hPhi
  have houter : HasDerivAt (fun s : ℝ => A * s * Real.sqrt T) (A * Real.sqrt T) sigma := by
    have h := ((hasDerivAt_id sigma).const_mul A).mul_const (Real.sqrt T)
    convert h using 1
    ring
  have htotal : HasDerivAt (fun s : ℝ => A * s * Real.sqrt T *
      (stdNormalPdf (m / (s * Real.sqrt T)) +
        ww * (m / (s * Real.sqrt T)) * normalCdf (ww * (m / (s * Real.sqrt T)))))
      ((A * Real.sqrt T) * (stdNormalPdf ds + ww * ds * normalCdf (ww * ds)) +
        (A * sigma * Real.sqrt T) *
          ((-ds * stdNormalPdf ds * dd) +
            ((ww * dd) * normalCdf (ww * ds) + (ww * ds) * (stdNormalPdf (ww * ds) * (ww * dd)))))
      sigma := houter.mul (hphi.add hprod)
  have hkey : sigma * Real.sqrt T * dd = -ds * Real.sqrt T := by
    rw [hdddef, hdsdef]
    field_simp
    ring
  convert htotal using 1
  rcases hw with rfl | rfl
  · simp only [one_mul]
    linear_combination (-(A * normalCdf ds)) * hkey
  · rw [show (-1:ℝ) * ds = -ds from by ring, stdNormalPdf_even]
    linear_combination (A * normalCdf (-ds)) * hkey

/-- Rewriting of `d1`: `0.5·σ²·T = (σ·√T)²/2` for `T > 0`. -/
theorem d1_rewrite (F Kp T sigma : ℝ) (hT : 0 < T) :
    (Real.log (F / Kp) + 0.5 * sigma ^ 2 * T) / (sigma * Real.sqrt T) =
      (Real.log (F / Kp) + (sigma * Real.sqrt T) ^ 2 / 2) / (sigma * Real.sqrt T) := by
  rw [mul_pow, Real.sq_sqrt hT.le]
  ring_nf

/-- C2: for fixed `S, K, A > 0`, expiry `T > 0`, shift `≥ 0` and either flag,
in both the shifted-lognormal and the normal model, the price returned by
`swaption_formula` is non-negative for every volatility `σ > 0`, and it is
strictly increasing in `σ` on `(0, ∞)`. -/
theorem swaption_price_nonneg_and_increasing (S K A T shift : ℝ) (pr : PayRec) (model : Model)
    (hS : 0 < S) (hK : 0 < K) (hA : 0 < A) (hT : 0 < T) (hsh : 0 ≤ shift) :
    (∀ sigma, 0 < sigma → 0 ≤ swaption_formula S K A T sigma pr model shift)
    ∧ StrictMonoOn (fun sigma => swaption_formula S K A T sigma pr model shift)
        (Set.Ioi 0) := by
  have hF : 0 < S + shift := by linarith
  have hKp : 0 < K + shift := by linarith
  have hsT : 0 < Real.sqrt T := Real.sqrt_pos.mpr hT
  cases model with
  | lognormal =>
    constructor
    · intro sigma hsig
      have hu : 0 < sigma * Real.sqrt T := mul_pos hsig hsT
      exact blackFn_nonneg (S + shift) (K + shift) A (w pr) (sigma * Real.sqrt T)
        ((Real.log ((S + shift) / (K + shift)) + 0.5 * sigma ^ 2 * T) /
          (sigma * Real.sqrt T))
        ((Real.log ((S + shift) / (K + shift)) + 0.5 * sigma ^ 2 * T) /
          (sigma * Real.sqrt T) - sigma * Real.sqrt T)
        (w_cases pr) hF hKp hA.le hu (d1_rewrite (S + shift) (K + shift) T sigma hT) rfl
    · apply strictMonoOn_of_deriv_pos (convex_Ioi 0)
      · intro x hx
        have hx' : 0 < x := hx
        exact (hasDerivAt_blackFn (S + shift) (K + shift) A T (w pr) (w_cases pr)
          hF hKp hT hx').continuousAt.continuousWithinAt
      · intro x hx
        rw [interior_Ioi] at hx
        have hx' : 0 < x := hx
        have hd := hasDerivAt_blackFn (S + shift) (K + shift) A T (w pr) (w_cases pr)
          hF hKp hT hx'
        have hdv : deriv (fun sigma => swaption_formula S K A T sigma pr .lognormal shift) x =
            A * ((S + shift) * stdNormalPdf ((Real.log ((S + shift) / (K + shift)) +
              0.5 * x ^ 2 * T) / (x * Real.sqrt T)) * Real.sqrt T) :=
          HasDerivAt.deriv hd
        rw [hdv]
        exact mul_pos hA (mul_pos (mul_pos hF (stdNormalPdf_pos _)) hsT)
  | normal =>
    constructor
    · intro sigma hsig
      have hbr := bachelier_bracket_nonneg (w pr) ((S - K) / (sigma * Real.sqrt T)) (w_cases pr)
      have hpos : (0:ℝ) ≤ A * sigma * Real.sqrt T := by positivity
      exact mul_nonneg hpos hbr
    · apply strictMonoOn_of_deriv_pos (convex_Ioi 0)
      · intro x hx
        have hx' : 0 < x := hx
        exact (hasDerivAt_bachelierFn A T (S - K) (w pr) (w_cases pr) hT
          hx').continuousAt.continuousWithinAt
      · intro x hx
        rw [interior_Ioi] at hx
        have hx' : 0 < x := hx
        have hd := hasDerivAt_bachelierFn A T (S - K) (w pr) (w_cases pr) hT hx'
        have hdv : deriv (fun sigma => swaption_formula S K A T sigma pr .normal shift) x =
            A * Real.sqrt T * stdNormalPdf ((S - K) / (x * Real.sqrt T)) :=
          HasDerivAt.deriv hd
        rw [hdv]
        exact mul_pos (mul_pos hA hsT) (stdNormalPdf_pos _)

/-- Witness for `swaption_price_nonneg_and_increasing` at
`S = K = A = T = 1`, `shift = 0`, payer flag, normal model. -/
theorem swaption_price_nonneg_and_increasing_witness :
    (∀ sigma, 0 < sigma → 0 ≤ swaption_formula 1 1 1 1 sigma .payer .normal 0)
    ∧ StrictMonoOn (fun sigma => swaption_formula 1 1 1 1 sigma .payer .normal 0)
        (Set.Ioi 0) :=
  swaption_price_nonneg_and_increasing 1 1 1 1 0 .payer .normal
    (by norm_num) (by norm_num) (by norm_num) (by norm_num) (by norm_num)

end Swaption
